import Mathlib

/-!
Verification of the checkpoint (save/load) workflow demonstrated in
`chapter03_deep-neural-networks/serialization.ipynb`.

The notebook itself only calls the framework's serialization API
(`nd.save`, `nd.load`, `save_parameters`, `load_parameters`); the
implementations of those routines are not part of this repository, so
they are modelled here from the specification's contract: a checkpoint
file is a flat token stream that records either an ordered sequence of
arrays or a named collection of arrays, with enough information (shape
and values, optionally a name) to reconstruct the input exactly.
Array element values are modelled as exact rationals, so that
"bit-identical" becomes propositional equality of values.
-/

/-- A dense rectangular block of numeric values with a fixed shape
(the notebook's NDArray: shape plus row-major data). -/
structure NDArray where
  shape : List Nat
  data : List ℚ
deriving DecidableEq

/-- The two argument forms accepted by the checkpoint writer: an ordered
sequence of arrays, or a named collection keyed by strings. -/
inductive SaveArg where
  | list : List NDArray → SaveArg
  | dict : List (String × NDArray) → SaveArg
deriving DecidableEq

/-- Tokens of the modelled on-disk checkpoint format. -/
inductive Tok where
  | nat : Nat → Tok
  | rat : ℚ → Tok
  | str : String → Tok
deriving DecidableEq

/-- Modelled from the spec: the encoding of one array into the checkpoint
token stream (the of-this-repository-external `nd.save` array encoder):
shape length, shape, data length, data. -/
def encodeArray (a : NDArray) : List Tok :=
  Tok.nat a.shape.length :: (a.shape.map Tok.nat ++
    (Tok.nat a.data.length :: a.data.map Tok.rat))

/-- Modelled from the spec: the checkpoint file content produced by the
writer `nd.save` (whose implementation lives in the external framework):
a tag distinguishing the list form from the dict form, a count, then the
encoded arrays, each dict entry preceded by its key. -/
def encodeFile : SaveArg → List Tok
  | SaveArg.list arrs => Tok.nat 0 :: Tok.nat arrs.length :: (arrs.map encodeArray).flatten
  | SaveArg.dict es =>
      Tok.nat 1 :: Tok.nat es.length ::
        (es.map (fun e => Tok.str e.1 :: encodeArray e.2)).flatten

/-- The checkpoint writer at the level of file contents (`nd.save`). -/
def nd_save (arg : SaveArg) : List Tok := encodeFile arg

/-- Decode exactly `n` nat tokens. -/
def decodeNats : Nat → List Tok → Option (List Nat × List Tok)
  | 0, ts => some ([], ts)
  | n + 1, Tok.nat v :: ts =>
      match decodeNats n ts with
      | some (vs, r) => some (v :: vs, r)
      | none => none
  | _ + 1, _ => none

/-- Decode exactly `n` rational tokens. -/
def decodeRats : Nat → List Tok → Option (List ℚ × List Tok)
  | 0, ts => some ([], ts)
  | n + 1, Tok.rat v :: ts =>
      match decodeRats n ts with
      | some (vs, r) => some (v :: vs, r)
      | none => none
  | _ + 1, _ => none

/-- Decode one encoded array. -/
def decodeArray : List Tok → Option (NDArray × List Tok)
  | Tok.nat sl :: ts =>
      match decodeNats sl ts with
      | some (shape, Tok.nat dl :: ts2) =>
          match decodeRats dl ts2 with
          | some (data, r) => some (⟨shape, data⟩, r)
          | none => none
      | _ => none
  | _ => none

/-- Decode exactly `n` encoded arrays. -/
def decodeArrays : Nat → List Tok → Option (List NDArray × List Tok)
  | 0, ts => some ([], ts)
  | n + 1, ts =>
      match decodeArray ts with
      | some (a, r) =>
          match decodeArrays n r with
          | some (as2, r2) => some (a :: as2, r2)
          | none => none
      | none => none

/-- Decode exactly `n` key/array entries. -/
def decodeEntries : Nat → List Tok → Option (List (String × NDArray) × List Tok)
  | 0, ts => some ([], ts)
  | n + 1, Tok.str k :: ts =>
      match decodeArray ts with
      | some (a, r) =>
          match decodeEntries n r with
          | some (es, r2) => some ((k, a) :: es, r2)
          | none => none
      | none => none
  | _ + 1, _ => none

/-- Decode a whole checkpoint argument, returning the unread remainder. -/
def decodeSaveArg : List Tok → Option (SaveArg × List Tok)
  | Tok.nat 0 :: Tok.nat n :: ts =>
      match decodeArrays n ts with
      | some (arrs, r) => some (SaveArg.list arrs, r)
      | none => none
  | Tok.nat 1 :: Tok.nat n :: ts =>
      match decodeEntries n ts with
      | some (es, r) => some (SaveArg.dict es, r)
      | none => none
  | _ => none

/-- Modelled from the spec: the checkpoint reader `nd.load` (whose
implementation lives in the external framework). It parses the whole
file and fails on any leftover or malformed content. -/
def nd_load (ts : List Tok) : Option SaveArg :=
  match decodeSaveArg ts with
  | some (a, []) => some a
  | _ => none

theorem decodeNats_encode (l : List Nat) (rest : List Tok) :
    decodeNats l.length (l.map Tok.nat ++ rest) = some (l, rest) := by
  induction l with
  | nil => rfl
  | cons x xs ih => simp [decodeNats, ih]

theorem decodeRats_encode (l : List ℚ) (rest : List Tok) :
    decodeRats l.length (l.map Tok.rat ++ rest) = some (l, rest) := by
  induction l with
  | nil => rfl
  | cons x xs ih => simp [decodeRats, ih]

theorem decodeArray_encode (a : NDArray) (rest : List Tok) :
    decodeArray (encodeArray a ++ rest) = some (a, rest) := by
  cases a with
  | mk shape data =>
      simp only [encodeArray, List.cons_append, List.append_assoc]
      simp [decodeArray, decodeNats_encode, decodeRats_encode]

theorem decodeArrays_encode (l : List NDArray) (rest : List Tok) :
    decodeArrays l.length ((l.map encodeArray).flatten ++ rest) = some (l, rest) := by
  induction l generalizing rest with
  | nil => rfl
  | cons a as2 ih =>
      simp only [List.map_cons, List.flatten, List.append_assoc, List.length_cons]
      simp [decodeArrays, decodeArray_encode, ih]

theorem decodeEntries_encode (es : List (String × NDArray)) (rest : List Tok) :
    decodeEntries es.length
      ((es.map (fun e => Tok.str e.1 :: encodeArray e.2)).flatten ++ rest) =
      some (es, rest) := by
  induction es generalizing rest with
  | nil => rfl
  | cons e es2 ih =>
      simp only [List.map_cons, List.flatten, List.cons_append, List.append_assoc,
        List.length_cons]
      simp [decodeEntries, decodeArray_encode, ih]

theorem decodeSaveArg_encode (arg : SaveArg) (rest : List Tok) :
    decodeSaveArg (encodeFile arg ++ rest) = some (arg, rest) := by
  cases arg with
  | list arrs =>
      simp only [encodeFile, List.cons_append]
      simp [decodeSaveArg, decodeArrays_encode]
  | dict es =>
      simp only [encodeFile, List.cons_append]
      simp [decodeSaveArg, decodeEntries_encode]

theorem nd_load_encode (arg : SaveArg) : nd_load (encodeFile arg) = some arg := by
  have h := decodeSaveArg_encode arg []
  rw [List.append_nil] at h
  simp [nd_load, h]

theorem decodeNats_exact :
    ∀ (n : Nat) (ts : List Tok) (l : List Nat) (r : List Tok),
      decodeNats n ts = some (l, r) → ts = l.map Tok.nat ++ r ∧ l.length = n := by
  intro n
  induction n with
  | zero =>
      intro ts l r h
      simp only [decodeNats, Option.some.injEq, Prod.mk.injEq] at h
      obtain ⟨h1, h2⟩ := h
      subst h1; subst h2
      simp
  | succ n ih =>
      intro ts l r h
      cases ts with
      | nil => simp [decodeNats] at h
      | cons t ts2 =>
          cases t with
          | rat q => simp [decodeNats] at h
          | str s => simp [decodeNats] at h
          | nat v =>
              simp only [decodeNats] at h
              cases h1 : decodeNats n ts2 with
              | none => rw [h1] at h; simp at h
              | some p =>
                  obtain ⟨vs, r2⟩ := p
                  rw [h1] at h
                  simp only [Option.some.injEq, Prod.mk.injEq] at h
                  obtain ⟨hl, hr⟩ := h
                  obtain ⟨hts, hlen⟩ := ih ts2 vs r2 h1
                  subst hl; subst hr; subst hts; subst hlen
                  simp

theorem decodeRats_exact :
    ∀ (n : Nat) (ts : List Tok) (l : List ℚ) (r : List Tok),
      decodeRats n ts = some (l, r) → ts = l.map Tok.rat ++ r ∧ l.length = n := by
  intro n
  induction n with
  | zero =>
      intro ts l r h
      simp only [decodeRats, Option.some.injEq, Prod.mk.injEq] at h
      obtain ⟨h1, h2⟩ := h
      subst h1; subst h2
      simp
  | succ n ih =>
      intro ts l r h
      cases ts with
      | nil => simp [decodeRats] at h
      | cons t ts2 =>
          cases t with
          | nat v => simp [decodeRats] at h
          | str s => simp [decodeRats] at h
          | rat q =>
              simp only [decodeRats] at h
              cases h1 : decodeRats n ts2 with
              | none => rw [h1] at h; simp at h
              | some p =>
                  obtain ⟨vs, r2⟩ := p
                  rw [h1] at h
                  simp only [Option.some.injEq, Prod.mk.injEq] at h
                  obtain ⟨hl, hr⟩ := h
                  obtain ⟨hts, hlen⟩ := ih ts2 vs r2 h1
                  subst hl; subst hr; subst hts; subst hlen
                  simp

theorem decodeArray_exact (ts : List Tok) (a : NDArray) (r : List Tok)
    (h : decodeArray ts = some (a, r)) : ts = encodeArray a ++ r := by
  cases ts with
  | nil => simp [decodeArray] at h
  | cons t ts2 =>
      cases t with
      | rat q => simp [decodeArray] at h
      | str s => simp [decodeArray] at h
      | nat sl =>
          simp only [decodeArray] at h
          cases h1 : decodeNats sl ts2 with
          | none => rw [h1] at h; simp at h
          | some p =>
              obtain ⟨shape, ts3⟩ := p
              rw [h1] at h
              cases ts3 with
              | nil => simp at h
              | cons t2 ts4 =>
                  cases t2 with
                  | rat q2 => simp at h
                  | str s2 => simp at h
                  | nat dl =>
                      dsimp only at h
                      cases h2 : decodeRats dl ts4 with
                      | none => rw [h2] at h; simp at h
                      | some p2 =>
                          obtain ⟨data, r2⟩ := p2
                          rw [h2] at h
                          simp only [Option.some.injEq, Prod.mk.injEq] at h
                          obtain ⟨ha, hr⟩ := h
                          obtain ⟨hts2, hsl⟩ := decodeNats_exact sl ts2 shape _ h1
                          obtain ⟨hts4, hdl⟩ := decodeRats_exact dl ts4 data r2 h2
                          subst ha; subst hr; subst hsl; subst hdl
                          subst hts4; subst hts2
                          simp [encodeArray]

theorem decodeArrays_exact :
    ∀ (n : Nat) (ts : List Tok) (l : List NDArray) (r : List Tok),
      decodeArrays n ts = some (l, r) →
        ts = (l.map encodeArray).flatten ++ r ∧ l.length = n := by
  intro n
  induction n with
  | zero =>
      intro ts l r h
      simp only [decodeArrays, Option.some.injEq, Prod.mk.injEq] at h
      obtain ⟨h1, h2⟩ := h
      subst h1; subst h2
      simp
  | succ n ih =>
      intro ts l r h
      simp only [decodeArrays] at h
      cases h1 : decodeArray ts with
      | none => rw [h1] at h; simp at h
      | some p =>
          obtain ⟨a, r2⟩ := p
          rw [h1] at h
          dsimp only at h
          cases h2 : decodeArrays n r2 with
          | none => rw [h2] at h; simp at h
          | some p2 =>
              obtain ⟨as2, r3⟩ := p2
              rw [h2] at h
              simp only [Option.some.injEq, Prod.mk.injEq] at h
              obtain ⟨hl, hr⟩ := h
              have hts := decodeArray_exact ts a r2 h1
              obtain ⟨hr2, hlen⟩ := ih r2 as2 r3 h2
              subst hl; subst hr; subst hlen; subst hr2; subst hts
              simp

theorem decodeEntries_exact :
    ∀ (n : Nat) (ts : List Tok) (es : List (String × NDArray)) (r : List Tok),
      decodeEntries n ts = some (es, r) →
        ts = (es.map (fun e => Tok.str e.1 :: encodeArray e.2)).flatten ++ r ∧
          es.length = n := by
  intro n
  induction n with
  | zero =>
      intro ts es r h
      simp only [decodeEntries, Option.some.injEq, Prod.mk.injEq] at h
      obtain ⟨h1, h2⟩ := h
      subst h1; subst h2
      simp
  | succ n ih =>
      intro ts es r h
      cases ts with
      | nil => simp [decodeEntries] at h
      | cons t ts2 =>
          cases t with
          | nat v => simp [decodeEntries] at h
          | rat q => simp [decodeEntries] at h
          | str k =>
              simp only [decodeEntries] at h
              cases h1 : decodeArray ts2 with
              | none => rw [h1] at h; simp at h
              | some p =>
                  obtain ⟨a, r2⟩ := p
                  rw [h1] at h
                  dsimp only at h
                  cases h2 : decodeEntries n r2 with
                  | none => rw [h2] at h; simp at h
                  | some p2 =>
                      obtain ⟨es2, r3⟩ := p2
                      rw [h2] at h
                      simp only [Option.some.injEq, Prod.mk.injEq] at h
                      obtain ⟨he, hr⟩ := h
                      have hts2 := decodeArray_exact ts2 a r2 h1
                      obtain ⟨hr2, hlen⟩ := ih r2 es2 r3 h2
                      subst he; subst hr; subst hlen; subst hr2; subst hts2
                      simp

theorem decodeSaveArg_exact (ts : List Tok) (arg : SaveArg) (r : List Tok)
    (h : decodeSaveArg ts = some (arg, r)) : ts = encodeFile arg ++ r := by
  cases ts with
  | nil => simp [decodeSaveArg] at h
  | cons t ts2 =>
      cases t with
      | rat q => simp [decodeSaveArg] at h
      | str s => simp [decodeSaveArg] at h
      | nat tag =>
          cases ts2 with
          | nil =>
              cases tag with
              | zero => simp [decodeSaveArg] at h
              | succ tag2 =>
                  cases tag2 with
                  | zero => simp [decodeSaveArg] at h
                  | succ tag3 => simp [decodeSaveArg] at h
          | cons t2 ts3 =>
              cases t2 with
              | rat q2 =>
                  cases tag with
                  | zero => simp [decodeSaveArg] at h
                  | succ tag2 =>
                      cases tag2 with
                      | zero => simp [decodeSaveArg] at h
                      | succ tag3 => simp [decodeSaveArg] at h
              | str s2 =>
                  cases tag with
                  | zero => simp [decodeSaveArg] at h
                  | succ tag2 =>
                      cases tag2 with
                      | zero => simp [decodeSaveArg] at h
                      | succ tag3 => simp [decodeSaveArg] at h
              | nat n =>
                  cases tag with
                  | zero =>
                      simp only [decodeSaveArg] at h
                      cases h1 : decodeArrays n ts3 with
                      | none => rw [h1] at h; simp at h
                      | some p =>
                          obtain ⟨arrs, r2⟩ := p
                          rw [h1] at h
                          simp only [Option.some.injEq, Prod.mk.injEq] at h
                          obtain ⟨ha, hr⟩ := h
                          obtain ⟨hts3, hlen⟩ := decodeArrays_exact n ts3 arrs r2 h1
                          subst ha; subst hr; subst hlen; subst hts3
                          simp [encodeFile]
                  | succ tag2 =>
                      cases tag2 with
                      | zero =>
                          simp only [decodeSaveArg] at h
                          cases h1 : decodeEntries n ts3 with
                          | none => rw [h1] at h; simp at h
                          | some p =>
                              obtain ⟨es, r2⟩ := p
                              rw [h1] at h
                              simp only [Option.some.injEq, Prod.mk.injEq] at h
                              obtain ⟨ha, hr⟩ := h
                              obtain ⟨hts3, hlen⟩ := decodeEntries_exact n ts3 es r2 h1
                              subst ha; subst hr; subst hlen; subst hts3
                              simp [encodeFile]
                      | succ tag3 => simp [decodeSaveArg] at h

theorem nd_load_exact (ts : List Tok) (arg : SaveArg)
    (h : nd_load ts = some arg) : ts = encodeFile arg := by
  unfold nd_load at h
  cases h2 : decodeSaveArg ts with
  | none => rw [h2] at h; simp at h
  | some p =>
      obtain ⟨a, r⟩ := p
      rw [h2] at h
      cases r with
      | nil =>
          dsimp only at h
          have ha : a = arg := Option.some.inj h
          subst ha
          simpa using decodeSaveArg_exact ts a [] h2
      | cons x xs => simp at h

theorem nd_load_truncated (arg : SaveArg) (k : Nat)
    (hk : k < (encodeFile arg).length) :
    nd_load ((encodeFile arg).take k) = none := by
  cases hy : nd_load ((encodeFile arg).take k) with
  | none => rfl
  | some y =>
      exfalso
      have hexact := nd_load_exact _ y hy
      have hsplit : encodeFile y ++ (encodeFile arg).drop k = encodeFile arg := by
        rw [← hexact, List.take_append_drop]
      have hdec : decodeSaveArg (encodeFile y ++ (encodeFile arg).drop k) =
          some (y, (encodeFile arg).drop k) := decodeSaveArg_encode y _
      rw [hsplit] at hdec
      have hdec2 : decodeSaveArg (encodeFile arg) = some (arg, []) := by
        simpa using decodeSaveArg_encode arg []
      rw [hdec2] at hdec
      have hpair := Option.some.inj hdec
      have hnil : (encodeFile arg).drop k = [] := (congrArg Prod.snd hpair).symm
      have hlen := congrArg List.length hnil
      simp only [List.length_drop, List.length_nil] at hlen
      omega

/-- Association lookup with string keys (Python dict access). -/
def dictLookup {α : Type} (k : String) : List (String × α) → Option α
  | [] => none
  | (k2, v) :: es => if k = k2 then some v else dictLookup k es

/-- The file system visible to the notebook: a set of existing directories
and a map from paths to checkpoint file contents. -/
structure FS where
  dirs : List String
  files : List (String × List Tok)
deriving DecidableEq

/-- The notebook's directory guard: `if not os.path.exists(dir_name):
os.makedirs(dir_name)`. -/
def ensureDir (fs : FS) (d : String) : FS :=
  if d ∈ fs.dirs then fs else { fs with dirs := d :: fs.dirs }

/-- Write (or overwrite) a file at a path. -/
def writeFile (fs : FS) (path : String) (content : List Tok) : FS :=
  { fs with files := (path, content) :: fs.files }

/-- Path joining, `os.path.join(dir_name, fname)`. -/
def joinPath (d f : String) : String := d ++ "/" ++ f

/-- Read a file's contents, failing when the path is absent. -/
def readFile (fs : FS) (path : String) : Option (List Tok) :=
  dictLookup path fs.files

/-- The checkpoint writer as the notebook runs it: create the target
directory when absent, then write the encoded argument to the joined
path (`os.makedirs` + `nd.save`). -/
def writeCheckpoint (fs : FS) (d fname : String) (arg : SaveArg) : FS :=
  writeFile (ensureDir fs d) (joinPath d fname) (nd_save arg)

/-- The checkpoint reader given only a file path: reads the file and
decodes it; fails when the file is missing or does not decode. -/
def readCheckpoint (fs : FS) (path : String) : Option SaveArg :=
  match readFile fs path with
  | some ts => nd_load ts
  | none => none

/-- The all-ones array builder `nd.ones((m, n))`. -/
def nd_ones (m n : Nat) : NDArray := ⟨[m, n], List.replicate (m * n) 1⟩

/-- The all-zeros array builder `nd.zeros((m, n))`. -/
def nd_zeros (m n : Nat) : NDArray := ⟨[m, n], List.replicate (m * n) 0⟩

theorem readFile_writeCheckpoint (fs : FS) (d fname : String) (arg : SaveArg) :
    readFile (writeCheckpoint fs d fname arg) (joinPath d fname) = some (nd_save arg) := by
  simp [readFile, writeCheckpoint, writeFile, ensureDir, dictLookup]

theorem readCheckpoint_writeCheckpoint (fs : FS) (d fname : String) (arg : SaveArg) :
    readCheckpoint (writeCheckpoint fs d fname arg) (joinPath d fname) = some arg := by
  rw [readCheckpoint, readFile_writeCheckpoint]
  exact nd_load_encode arg

/-- The decimal digit character for `d` (codepoint 48 + d). -/
def digitChar (d : Nat) : Char := Char.ofNat (48 + d)

/-- The decimal digit characters of a natural number, most significant
first (the rendering used to build stable parameter names). -/
def natChars (n : Nat) : List Char :=
  if _h : n < 10 then [digitChar n] else natChars (n / 10) ++ [digitChar (n % 10)]
decreasing_by exact Nat.div_lt_self (by omega) (by omega)

/-- Decimal value of a digit-character list (left inverse of `natChars`). -/
def valOf (cs : List Char) : Nat :=
  cs.foldl (fun a c => 10 * a + (c.toNat - 48)) 0

theorem toNat_digitChar (d : Nat) (hd : d < 10) : (digitChar d).toNat = 48 + d := by
  interval_cases d <;> rfl

theorem valOf_append_digit (cs : List Char) (c : Char) :
    valOf (cs ++ [c]) = 10 * valOf cs + (c.toNat - 48) := by
  simp [valOf, List.foldl_append]

theorem valOf_natChars (n : Nat) : valOf (natChars n) = n := by
  induction n using Nat.strong_induction_on with
  | _ n ih =>
      rw [natChars]
      by_cases h : n < 10
      · simp only [h, dif_pos]
        simp [valOf, toNat_digitChar n h]
      · simp only [h, dif_neg, not_false_iff]
        rw [valOf_append_digit, ih (n / 10) (Nat.div_lt_self (by omega) (by omega)),
          toNat_digitChar (n % 10) (Nat.mod_lt n (by omega))]
        omega

theorem natChars_inj {a b : Nat} (h : natChars a = natChars b) : a = b := by
  have h2 := congrArg valOf h
  rwa [valOf_natChars, valOf_natChars] at h2

/-- The stable name of layer `i`'s weight parameter. -/
def weightKey (i : Nat) : String :=
  String.mk ('w' :: 'e' :: 'i' :: 'g' :: 'h' :: 't' :: '.' :: natChars i)

/-- The stable name of layer `i`'s bias parameter. -/
def biasKey (i : Nat) : String :=
  String.mk ('b' :: 'i' :: 'a' :: 's' :: '.' :: natChars i)

theorem weightKey_inj {i j : Nat} (h : weightKey i = weightKey j) : i = j := by
  have h2 : ('w' :: 'e' :: 'i' :: 'g' :: 'h' :: 't' :: '.' :: natChars i) =
      ('w' :: 'e' :: 'i' :: 'g' :: 'h' :: 't' :: '.' :: natChars j) :=
    congrArg String.data h
  simp only [List.cons.injEq, true_and] at h2
  exact natChars_inj h2

theorem biasKey_inj {i j : Nat} (h : biasKey i = biasKey j) : i = j := by
  have h2 : ('b' :: 'i' :: 'a' :: 's' :: '.' :: natChars i) =
      ('b' :: 'i' :: 'a' :: 's' :: '.' :: natChars j) :=
    congrArg String.data h
  simp only [List.cons.injEq, true_and] at h2
  exact natChars_inj h2

theorem weightKey_ne_biasKey (i j : Nat) : weightKey i ≠ biasKey j := by
  intro h
  have h2 : ('w' :: 'e' :: 'i' :: 'g' :: 'h' :: 't' :: '.' :: natChars i) =
      ('b' :: 'i' :: 'a' :: 's' :: '.' :: natChars j) :=
    congrArg String.data h
  simp only [List.cons.injEq] at h2
  exact absurd h2.1 (by decide)

/-- The rectified-linear activation. -/
def relu (q : ℚ) : ℚ := max q 0

/-- A fully connected (`gluon.nn.Dense`) layer: its input width, number
of units, whether a rectified-linear activation follows, and its weight
matrix (one row per unit) and bias vector. -/
structure DenseLayer where
  inDim : Nat
  units : Nat
  act : Bool
  weight : List (List ℚ)
  bias : List ℚ
deriving DecidableEq

/-- The architecture of a dense layer without its parameter values: what
a freshly constructed, not-yet-initialized layer declares. -/
structure LayerSpec where
  inDim : Nat
  units : Nat
  act : Bool
deriving DecidableEq

def DenseLayer.toSpec (l : DenseLayer) : LayerSpec := ⟨l.inDim, l.units, l.act⟩

/-- The architecture of a network: the structurally-identical,
uninitialized copy `net2` constructed by the notebook. -/
def netSpec (net : List DenseLayer) : List LayerSpec := net.map DenseLayer.toSpec

/-- Modelled from the spec: one dense layer's forward map (the external
framework's Dense block): each unit takes a dot product with the input,
adds its bias, and applies relu when the layer is activated. -/
def denseForward (l : DenseLayer) (x : List ℚ) : List ℚ :=
  List.zipWith (fun wrow b =>
    let s := (List.zipWith (fun w xi => w * xi) wrow x).sum + b
    if l.act then relu s else s) l.weight l.bias

/-- Modelled from the spec: inference of the sequential model — the
layers applied in order to the input vector. -/
def netForward (net : List DenseLayer) (x : List ℚ) : List ℚ :=
  net.foldl (fun v l => denseForward l v) x

/-- Structural well-formedness of one layer: the weight matrix has one
row of length `inDim` per unit, and one bias entry per unit. -/
def LayerWF (l : DenseLayer) : Prop :=
  l.weight.length = l.units ∧ (∀ row ∈ l.weight, row.length = l.inDim) ∧
    l.bias.length = l.units

/-- Structural well-formedness of a whole network. -/
def NetWF (net : List DenseLayer) : Prop := ∀ l ∈ net, LayerWF l

instance (l : DenseLayer) : Decidable (LayerWF l) := by
  unfold LayerWF; infer_instance

instance (net : List DenseLayer) : Decidable (NetWF net) := by
  unfold NetWF; infer_instance

/-- The named parameter entries of layer `i`: its weight (flattened
row-major, with its 2-D shape) and its bias. -/
def layerParams (i : Nat) (l : DenseLayer) : List (String × NDArray) :=
  [(weightKey i, ⟨[l.units, l.inDim], l.weight.flatten⟩),
   (biasKey i, ⟨[l.units], l.bias⟩)]

/-- The parameter collection of the layers starting at index `i`. -/
def paramsFrom : Nat → List DenseLayer → List (String × NDArray)
  | _, [] => []
  | i, l :: ls => layerParams i l ++ paramsFrom (i + 1) ls

/-- Modelled from the spec: `net.save_parameters` — persist every
parameter array of the model, keyed by its stable per-parameter name, as
a named collection in checkpoint file format. -/
def save_parameters (net : List DenseLayer) : List Tok :=
  nd_save (SaveArg.dict (paramsFrom 0 net))

/-- Split a flat row-major data list back into `rows` rows of `cols`. -/
def toRows : Nat → Nat → List ℚ → List (List ℚ)
  | 0, _, _ => []
  | r + 1, c, data => data.take c :: toRows r c (data.drop c)

/-- Modelled from the spec: populate layer `i` from the persisted named
collection, failing when its parameter names are absent or the recorded
shapes disagree with the declared architecture. -/
def loadLayer (i : Nat) (s : LayerSpec) (es : List (String × NDArray)) :
    Option DenseLayer :=
  match dictLookup (weightKey i) es, dictLookup (biasKey i) es with
  | some w, some b =>
      if w.shape = [s.units, s.inDim] ∧ w.data.length = s.units * s.inDim ∧
          b.shape = [s.units] ∧ b.data.length = s.units then
        some ⟨s.inDim, s.units, s.act, toRows s.units s.inDim w.data, b.data⟩
      else none
  | _, _ => none

/-- Populate the layers starting at index `i`, all-or-nothing. -/
def loadFrom : Nat → List LayerSpec → List (String × NDArray) →
    Option (List DenseLayer)
  | _, [], _ => some []
  | i, s :: ss, es =>
      match loadLayer i s es, loadFrom (i + 1) ss es with
      | some l, some rest => some (l :: rest)
      | _, _ => none

/-- The parameter names the architecture starting at index `i` expects. -/
def expectedKeysFrom : Nat → List LayerSpec → List String
  | _, [] => []
  | i, _ :: ss => weightKey i :: biasKey i :: expectedKeysFrom (i + 1) ss

/-- Modelled from the spec: `net2.load_parameters` — decode the
checkpoint file, require it to hold a named collection whose keys all
belong to the model's expected parameter names, and populate every
layer; any mismatch fails without producing a model. -/
def load_parameters (spec : List LayerSpec) (file : List Tok) :
    Option (List DenseLayer) :=
  match nd_load file with
  | some (SaveArg.dict es) =>
      if es.all (fun p => decide (p.1 ∈ expectedKeysFrom 0 spec)) then
        loadFrom 0 spec es
      else none
  | _ => none

theorem toRows_flatten :
    ∀ (w : List (List ℚ)) (c : Nat), (∀ r ∈ w, r.length = c) →
      toRows w.length c w.flatten = w := by
  intro w
  induction w with
  | nil => intro c _; rfl
  | cons r w2 ih =>
      intro c hc
      have hr : r.length = c := hc r (List.mem_cons_self r w2)
      simp only [List.length_cons, List.flatten_cons, toRows]
      rw [← hr, List.take_left, List.drop_left]
      rw [ih r.length fun r2 h2 => (hc r2 (List.mem_cons_of_mem r h2)).trans hr.symm]

theorem flatten_length_const :
    ∀ (w : List (List ℚ)) (c : Nat), (∀ r ∈ w, r.length = c) →
      w.flatten.length = w.length * c := by
  intro w
  induction w with
  | nil => intro c _; simp
  | cons r w2 ih =>
      intro c hc
      have hr : r.length = c := hc r (List.mem_cons_self r w2)
      simp only [List.flatten_cons, List.length_append, List.length_cons, hr,
        ih c fun r2 h2 => hc r2 (List.mem_cons_of_mem r h2)]
      ring

theorem dictLookup_params_weight (i : Nat) (l : DenseLayer)
    (es : List (String × NDArray)) :
    dictLookup (weightKey i) (layerParams i l ++ es) =
      some ⟨[l.units, l.inDim], l.weight.flatten⟩ := by
  simp [layerParams, dictLookup]

theorem dictLookup_params_bias (i : Nat) (l : DenseLayer)
    (es : List (String × NDArray)) :
    dictLookup (biasKey i) (layerParams i l ++ es) = some ⟨[l.units], l.bias⟩ := by
  have hne : biasKey i ≠ weightKey i := fun h => weightKey_ne_biasKey i i h.symm
  simp [layerParams, dictLookup, hne]

theorem dictLookup_params_weight_skip {i j : Nat} (hij : j ≠ i) (l : DenseLayer)
    (es : List (String × NDArray)) :
    dictLookup (weightKey j) (layerParams i l ++ es) = dictLookup (weightKey j) es := by
  have h1 : weightKey j ≠ weightKey i := fun h => hij (weightKey_inj h)
  have h2 : weightKey j ≠ biasKey i := weightKey_ne_biasKey j i
  simp [layerParams, dictLookup, h1, h2]

theorem dictLookup_params_bias_skip {i j : Nat} (hij : j ≠ i) (l : DenseLayer)
    (es : List (String × NDArray)) :
    dictLookup (biasKey j) (layerParams i l ++ es) = dictLookup (biasKey j) es := by
  have h1 : biasKey j ≠ weightKey i := fun h => weightKey_ne_biasKey i j h.symm
  have h2 : biasKey j ≠ biasKey i := fun h => hij (biasKey_inj h)
  simp [layerParams, dictLookup, h1, h2]

theorem loadLayer_skip {i j : Nat} (hij : j ≠ i) (s : LayerSpec) (l : DenseLayer)
    (es : List (String × NDArray)) :
    loadLayer j s (layerParams i l ++ es) = loadLayer j s es := by
  rw [loadLayer, loadLayer, dictLookup_params_weight_skip hij,
    dictLookup_params_bias_skip hij]

theorem loadFrom_skip :
    ∀ (ss : List LayerSpec) (k i : Nat) (l : DenseLayer)
      (es : List (String × NDArray)), i < k →
      loadFrom k ss (layerParams i l ++ es) = loadFrom k ss es := by
  intro ss
  induction ss with
  | nil => intro k i l es _; rfl
  | cons s ss2 ih =>
      intro k i l es hik
      rw [loadFrom, loadFrom, loadLayer_skip (by omega) s l es,
        ih (k + 1) i l es (by omega)]

theorem loadFrom_paramsFrom :
    ∀ (net : List DenseLayer) (i : Nat), NetWF net →
      loadFrom i (netSpec net) (paramsFrom i net) = some net := by
  intro net
  induction net with
  | nil => intro i _; rfl
  | cons l ls ih =>
      intro i hwf
      obtain ⟨hwl, hwr, hbl⟩ := hwf l (List.mem_cons_self l ls)
      have hwf2 : NetWF ls := fun l2 h2 => hwf l2 (List.mem_cons_of_mem l h2)
      have hflat : l.weight.flatten.length = l.units * l.inDim := by
        rw [flatten_length_const l.weight l.inDim hwr, hwl]
      have hrows : toRows l.units l.inDim l.weight.flatten = l.weight := by
        rw [← hwl]
        exact toRows_flatten l.weight l.inDim hwr
      simp only [netSpec, List.map_cons, paramsFrom, loadFrom]
      rw [loadLayer, dictLookup_params_weight, dictLookup_params_bias]
      dsimp only [DenseLayer.toSpec]
      rw [if_pos ⟨rfl, hflat, rfl, hbl⟩, hrows,
        loadFrom_skip (List.map DenseLayer.toSpec ls) (i + 1) i l
          (paramsFrom (i + 1) ls) (by omega)]
      have hih := ih (i + 1) hwf2
      simp only [netSpec] at hih
      rw [hih]

theorem paramsFrom_key_mem :
    ∀ (net : List DenseLayer) (i : Nat) (p : String × NDArray),
      p ∈ paramsFrom i net → p.1 ∈ expectedKeysFrom i (netSpec net) := by
  intro net
  induction net with
  | nil => intro i p hp; simp [paramsFrom] at hp
  | cons l ls ih =>
      intro i p hp
      simp only [paramsFrom, List.mem_append, layerParams, List.mem_cons,
        List.mem_singleton] at hp
      simp only [netSpec, List.map_cons, expectedKeysFrom, List.mem_cons]
      rcases hp with (h1 | h1 | h1) | h1
      · left; rw [h1]
      · right; left; rw [h1]
      · exact absurd h1 (List.not_mem_nil p)
      · right; right; exact ih (i + 1) p h1

theorem load_parameters_save_parameters (net : List DenseLayer) (h : NetWF net) :
    load_parameters (netSpec net) (save_parameters net) = some net := by
  have hall : (paramsFrom 0 net).all
      (fun p => decide (p.1 ∈ expectedKeysFrom 0 (netSpec net))) = true := by
    rw [List.all_eq_true]
    intro p hp
    exact decide_eq_true (paramsFrom_key_mem net 0 p hp)
  rw [load_parameters, save_parameters, nd_save, nd_load_encode]
  dsimp only
  rw [if_pos hall]
  exact loadFrom_paramsFrom net 0 h

/-- Layer `i`'s parameters are present in the collection under their
expected names, with the shapes the architecture declares. -/
def layerMatches (i : Nat) (s : LayerSpec) (es : List (String × NDArray)) : Prop :=
  ∃ w b, dictLookup (weightKey i) es = some w ∧ dictLookup (biasKey i) es = some b ∧
    w.shape = [s.units, s.inDim] ∧ w.data.length = s.units * s.inDim ∧
    b.shape = [s.units] ∧ b.data.length = s.units

/-- Every layer of the architecture starting at index `i` finds its
correctly-shaped parameters in the collection. -/
def specMatchesFrom : Nat → List LayerSpec → List (String × NDArray) → Prop
  | _, [], _ => True
  | i, s :: ss, es => layerMatches i s es ∧ specMatchesFrom (i + 1) ss es

/-- The persisted collection structurally matches the target model: its
keys are exactly expected parameter names and every declared parameter
is present with the declared shape. -/
def dictCompatible (spec : List LayerSpec) (es : List (String × NDArray)) : Prop :=
  (∀ p ∈ es, p.1 ∈ expectedKeysFrom 0 spec) ∧ specMatchesFrom 0 spec es

theorem loadLayer_isSome_iff (i : Nat) (s : LayerSpec)
    (es : List (String × NDArray)) :
    (loadLayer i s es).isSome = true ↔ layerMatches i s es := by
  rw [loadLayer]
  cases hw : dictLookup (weightKey i) es with
  | none =>
      dsimp only
      constructor
      · intro h; simp at h
      · rintro ⟨w2, b2, hw2, -⟩
        rw [hw] at hw2
        simp at hw2
  | some w =>
      cases hb : dictLookup (biasKey i) es with
      | none =>
          dsimp only
          constructor
          · intro h; simp at h
          · rintro ⟨w2, b2, hw2, hb2, -⟩
            rw [hb] at hb2
            simp at hb2
      | some b =>
          dsimp only
          by_cases hc : w.shape = [s.units, s.inDim] ∧
              w.data.length = s.units * s.inDim ∧
              b.shape = [s.units] ∧ b.data.length = s.units
          · rw [if_pos hc]
            simp only [Option.isSome_some, true_iff]
            exact ⟨w, b, hw, hb, hc.1, hc.2.1, hc.2.2.1, hc.2.2.2⟩
          · rw [if_neg hc]
            constructor
            · intro h; simp at h
            · rintro ⟨w2, b2, hw2, hb2, h1, h2, h3, h4⟩
              rw [hw] at hw2
              rw [hb] at hb2
              obtain rfl : w2 = w := (Option.some.inj hw2).symm
              obtain rfl : b2 = b := (Option.some.inj hb2).symm
              exact absurd ⟨h1, h2, h3, h4⟩ hc

theorem loadFrom_isSome_iff :
    ∀ (ss : List LayerSpec) (i : Nat) (es : List (String × NDArray)),
      (loadFrom i ss es).isSome = true ↔ specMatchesFrom i ss es := by
  intro ss
  induction ss with
  | nil => intro i es; simp [loadFrom, specMatchesFrom]
  | cons s ss2 ih =>
      intro i es
      rw [loadFrom, specMatchesFrom]
      cases hl : loadLayer i s es with
      | none =>
          dsimp only
          constructor
          · intro h; simp at h
          · rintro ⟨hm, -⟩
            have h2 := (loadLayer_isSome_iff i s es).mpr hm
            rw [hl] at h2
            simp at h2
      | some l =>
          cases hr : loadFrom (i + 1) ss2 es with
          | none =>
              dsimp only
              constructor
              · intro h; simp at h
              · rintro ⟨-, hm⟩
                have h2 := (ih (i + 1) es).mpr hm
                rw [hr] at h2
                simp at h2
          | some rest =>
              dsimp only
              constructor
              · intro _
                refine ⟨(loadLayer_isSome_iff i s es).mp ?_, (ih (i + 1) es).mp ?_⟩
                · rw [hl]; rfl
                · rw [hr]; rfl
              · intro _; rfl

/-- The in-memory state of the notebook session: named arrays, named
models, and the file system. -/
structure World where
  arrays : List (String × NDArray)
  nets : List (String × List DenseLayer)
  fs : FS
deriving DecidableEq

/-- The step `nd.save(os.path.join(d, fname), [arrays...])`: read
the named arrays from memory and write their checkpoint to disk. -/
def ndSaveStep (w : World) (d fname : String) (names : List String) : World :=
  match names.mapM (fun n => dictLookup n w.arrays) with
  | some arrs => { w with fs := writeCheckpoint w.fs d fname (SaveArg.list arrs) }
  | none => w

/-- The step `net.save_parameters(os.path.join(d, fname))`. -/
def saveParametersStep (w : World) (d fname netName : String) : World :=
  match dictLookup netName w.nets with
  | some net =>
      { w with fs := writeCheckpoint w.fs d fname (SaveArg.dict (paramsFrom 0 net)) }
  | none => w

theorem ndSaveStep_arrays (w : World) (d fname : String) (names : List String) :
    (ndSaveStep w d fname names).arrays = w.arrays := by
  rw [ndSaveStep]
  cases hm : names.mapM (fun n => dictLookup n w.arrays) with
  | none => rfl
  | some arrs => rfl

theorem ndSaveStep_nets (w : World) (d fname : String) (names : List String) :
    (ndSaveStep w d fname names).nets = w.nets := by
  rw [ndSaveStep]
  cases hm : names.mapM (fun n => dictLookup n w.arrays) with
  | none => rfl
  | some arrs => rfl

theorem saveParametersStep_arrays (w : World) (d fname netName : String) :
    (saveParametersStep w d fname netName).arrays = w.arrays := by
  rw [saveParametersStep]
  cases hm : dictLookup netName w.nets with
  | none => rfl
  | some net => rfl

theorem saveParametersStep_nets (w : World) (d fname netName : String) :
    (saveParametersStep w d fname netName).nets = w.nets := by
  rw [saveParametersStep]
  cases hm : dictLookup netName w.nets with
  | none => rfl
  | some net => rfl

/-- A small concrete well-formed network for witnesses. -/
def netEx : List DenseLayer :=
  [⟨2, 2, true, [[1, 2], [3, 4]], [5, 6]⟩, ⟨2, 1, false, [[1, -1]], [0]⟩]

/-- C1: for a model whose parameters are initialized, saving its
parameters to a file, constructing a structurally identical but
uninitialized model, and loading the file into it yields, for every
input vector, an inference output identical to the original model's. -/
theorem save_load_parameters_preserves_inference (net : List DenseLayer)
    (h : NetWF net) :
    ∃ net2, load_parameters (netSpec net) (save_parameters net) = some net2 ∧
      ∀ v : List ℚ, netForward net2 v = netForward net v :=
  ⟨net, load_parameters_save_parameters net h, fun _ => rfl⟩

theorem save_load_parameters_preserves_inference_witness :
    NetWF netEx ∧
      ∃ net2, load_parameters (netSpec netEx) (save_parameters netEx) = some net2 ∧
        ∀ v : List ℚ, netForward net2 v = netForward netEx v :=
  ⟨by decide, save_load_parameters_preserves_inference netEx (by decide)⟩

/-- C2: for every list of arrays, loading the file produced by saving it
returns the same arrays, element-for-element and shape-for-shape. -/
theorem nd_save_load_roundtrip_arrays (arrs : List NDArray) :
    nd_load (nd_save (SaveArg.list arrs)) = some (SaveArg.list arrs) :=
  nd_load_encode (SaveArg.list arrs)

/-- C3: saving a named collection and loading it back yields a mapping
with exactly the same keys and, under each key, an equal array. -/
theorem nd_save_load_roundtrip_dict (es : List (String × NDArray)) :
    ∃ es2, nd_load (nd_save (SaveArg.dict es)) = some (SaveArg.dict es2) ∧
      es2.map Prod.fst = es.map Prod.fst ∧
      ∀ k, dictLookup k es2 = dictLookup k es :=
  ⟨es, nd_load_encode (SaveArg.dict es), rfl, fun _ => rfl⟩

/-- C4: loading a persisted parameter collection into a model whose
expected parameter names or shapes do not match fails without producing
a model (the all-or-nothing result leaves no partially-loaded state). -/
theorem load_parameters_mismatch_fails (spec : List LayerSpec)
    (es : List (String × NDArray)) (h : ¬ dictCompatible spec es) :
    load_parameters spec (nd_save (SaveArg.dict es)) = none := by
  rw [load_parameters, nd_save, nd_load_encode]
  dsimp only
  by_cases hall : (es.all fun p => decide (p.1 ∈ expectedKeysFrom 0 spec)) = true
  · rw [if_pos hall]
    have hkeys : ∀ p ∈ es, p.1 ∈ expectedKeysFrom 0 spec := fun p hp =>
      of_decide_eq_true (List.all_eq_true.mp hall p hp)
    have hnm : ¬ specMatchesFrom 0 spec es := fun hm => h ⟨hkeys, hm⟩
    cases hl : loadFrom 0 spec es with
    | none => rfl
    | some net2 =>
        exact absurd ((loadFrom_isSome_iff spec 0 es).mp (by rw [hl]; rfl)) hnm
  · rw [if_neg hall]

theorem load_parameters_mismatch_fails_witness :
    ¬ dictCompatible [⟨100, 256, true⟩] [] ∧
      load_parameters [⟨100, 256, true⟩] (nd_save (SaveArg.dict [])) = none := by
  have hnc : ¬ dictCompatible [⟨100, 256, true⟩] [] := by
    rintro ⟨-, ⟨w, b, hw, -⟩, -⟩
    simp [dictLookup] at hw
  exact ⟨hnc, load_parameters_mismatch_fails [⟨100, 256, true⟩] [] hnc⟩

/-- C5: saving the unnamed pair of a 100 by 100 all-ones array and a 100
by 100 all-zeros array and loading the file returns the two arrays in
order, exactly all ones then all zeros, each with shape (100, 100). -/
theorem nd_save_load_concrete_pair :
    nd_load (nd_save (SaveArg.list [nd_ones 100 100, nd_zeros 100 100])) =
        some (SaveArg.list [nd_ones 100 100, nd_zeros 100 100]) ∧
      (nd_ones 100 100).shape = [100, 100] ∧
      (nd_ones 100 100).data = List.replicate 10000 1 ∧
      (nd_zeros 100 100).shape = [100, 100] ∧
      (nd_zeros 100 100).data = List.replicate 10000 0 :=
  ⟨nd_load_encode (SaveArg.list [nd_ones 100 100, nd_zeros 100 100]),
    rfl, rfl, rfl, rfl⟩

/-- C6: given only the file contents, the reader recovers exactly the
argument the writer was given — an ordered sequence when a list was
saved and a keyed mapping when a named collection was saved. -/
theorem nd_load_recovers_form (arg : SaveArg) :
    nd_load (nd_save arg) = some arg :=
  nd_load_encode arg

/-- C7: the checkpoint-writing step creates the absent target directory
itself before writing, so writing to a fresh path yields both the
directory and the file. -/
theorem writeCheckpoint_creates_dir (fs : FS) (d fname : String) (arg : SaveArg)
    (h : d ∉ fs.dirs) :
    d ∈ (writeCheckpoint fs d fname arg).dirs ∧
      readFile (writeCheckpoint fs d fname arg) (joinPath d fname) =
        some (nd_save arg) := by
  constructor
  · simp [writeCheckpoint, writeFile, ensureDir, h]
  · exact readFile_writeCheckpoint fs d fname arg

theorem writeCheckpoint_creates_dir_witness :
    "checkpoints" ∉ (⟨[], []⟩ : FS).dirs ∧
      "checkpoints" ∈
        (writeCheckpoint ⟨[], []⟩ "checkpoints" "test1.params" (SaveArg.list [])).dirs ∧
      readFile (writeCheckpoint ⟨[], []⟩ "checkpoints" "test1.params" (SaveArg.list []))
          (joinPath "checkpoints" "test1.params") = some (nd_save (SaveArg.list [])) :=
  ⟨by decide, writeCheckpoint_creates_dir ⟨[], []⟩ "checkpoints" "test1.params"
    (SaveArg.list []) (by decide)⟩

/-- C8: the checkpoint reader fails on a missing file, on any strict
truncation of a written file, and accepts only exact writer outputs (a
successful load means the file is a well-formed encoding). -/
theorem readCheckpoint_fails_on_bad_input :
    (∀ (fs : FS) (path : String), readFile fs path = none →
        readCheckpoint fs path = none) ∧
      (∀ (arg : SaveArg) (k : Nat), k < (encodeFile arg).length →
        nd_load ((encodeFile arg).take k) = none) ∧
      (∀ (ts : List Tok) (arg : SaveArg), nd_load ts = some arg →
        ts = encodeFile arg) := by
  refine ⟨fun fs path h => ?_, fun arg k hk => nd_load_truncated arg k hk,
    fun ts arg h => nd_load_exact ts arg h⟩
  rw [readCheckpoint, h]

theorem readCheckpoint_fails_on_bad_input_witness :
    readCheckpoint ⟨[], []⟩ "checkpoints/test1.params" = none ∧
      nd_load ((encodeFile (SaveArg.list [])).take 1) = none ∧
      encodeFile (SaveArg.list []) = encodeFile (SaveArg.list []) :=
  ⟨readCheckpoint_fails_on_bad_input.1 ⟨[], []⟩ "checkpoints/test1.params" rfl,
    readCheckpoint_fails_on_bad_input.2.1 (SaveArg.list []) 1 (by decide),
    readCheckpoint_fails_on_bad_input.2.2 (encodeFile (SaveArg.list []))
      (SaveArg.list []) (by decide)⟩

/-- C9: inference is deterministic once parameters are fixed — two
evaluations with the same parameters and the same input produce
identical outputs. -/
theorem netForward_deterministic (net1 net2 : List DenseLayer) (v1 v2 : List ℚ)
    (h1 : net1 = net2) (h2 : v1 = v2) :
    netForward net1 v1 = netForward net2 v2 := by
  rw [h1, h2]

theorem netForward_deterministic_witness :
    netForward netEx [1, 2] = netForward netEx [1, 2] :=
  netForward_deterministic netEx netEx [1, 2] [1, 2] rfl rfl

/-- C10: the saving steps are read-only with respect to the data being
saved — after `nd.save` of named arrays or `save_parameters` of a named
model, the in-memory arrays and models are unchanged. -/
theorem save_is_readonly (w : World) (d fname netName : String)
    (names : List String) :
    (ndSaveStep w d fname names).arrays = w.arrays ∧
      (ndSaveStep w d fname names).nets = w.nets ∧
      (saveParametersStep w d fname netName).arrays = w.arrays ∧
      (saveParametersStep w d fname netName).nets = w.nets :=
  ⟨ndSaveStep_arrays w d fname names, ndSaveStep_nets w d fname names,
    saveParametersStep_arrays w d fname netName,
    saveParametersStep_nets w d fname netName⟩
